import Mathlib

/-
  Verification of the parallel token-n-gram dictionary builder
  (src/packages/parser.rs).

  Modelling conventions:
  * Rust `String` tokens are Lean `String`s; Rust's byte-lexicographic
    `Ord` on ASCII strings is modelled by `str_le` below (character-wise
    lexicographic comparison).
  * `HashMap<String, i32>` frequency tables are modelled as total
    functions `String → Nat` with absent keys reading 0; this is faithful
    for equality comparisons because every count the program ever stores
    is at least 1, and counts only grow.
  * Fallible file opening is an `Option (List α)` argument (`none` models
    `read_lines` returning `Err`); successfully decoded lines are the
    list elements.
  * Per-line tokenization (`token_splitter`, which needs a regex engine)
    is a parameter `tok : α → List String`; both orchestrator variants
    use the identical tokenizer, as in the source.
-/
/-! ### Lexicographic order on strings (Rust `Ord for String`) -/
def str_leb : List Char → List Char → Bool
  | [], _ => true
  | _ :: _, [] => false
  | a :: as, b :: bs => if a < b then true else if a = b then str_leb as bs else false

/-- Lexicographic comparison of strings, mirroring Rust's `Ord` used by
`sort_unstable` (byte order; our templates and tokens are ASCII). -/
def str_le (a b : String) : Prop := str_leb a.data b.data = true

instance : DecidableRel str_le := fun a b =>
  inferInstanceAs (Decidable (str_leb a.data b.data = true))

instance : IsTotal String str_le := ⟨fun a b => by
  show str_leb a.data b.data = true ∨ str_leb b.data a.data = true
  have H : ∀ (l m : List Char), str_leb l m = true ∨ str_leb m l = true := by
    intro l
    induction l with
    | nil => intro m; exact Or.inl rfl
    | cons a as ih =>
      intro m
      cases m with
      | nil => exact Or.inr rfl
      | cons b bs =>
        rcases lt_trichotomy a b with h | h | h
        · left; simp [str_leb, h]
        · subst h
          rcases ih bs with h2 | h2
          · left; simp [str_leb, h2]
          · right; simp [str_leb, h2]
        · right; simp [str_leb, h]
  exact H a.data b.data⟩

instance : IsTrans String str_le := ⟨fun a b c h1 h2 => by
  show str_leb a.data c.data = true
  have H : ∀ (l m n : List Char), str_leb l m = true → str_leb m n = true →
      str_leb l n = true := by
    intro l
    induction l with
    | nil => intro m n _ _; rfl
    | cons a as ih =>
      intro m n h1 h2
      cases m with
      | nil => simp [str_leb] at h1
      | cons b bs =>
        cases n with
        | nil => simp [str_leb] at h2
        | cons c cs =>
          simp only [str_leb] at h1 h2 ⊢
          rcases lt_trichotomy a b with hab | hab | hab
          · rcases lt_trichotomy b c with hbc | hbc | hbc
            · simp [lt_trans hab hbc]
            · subst hbc; simp [hab]
            · rw [if_neg (lt_asymm hbc), if_neg (fun h => absurd h (ne_of_gt hbc))] at h2
              simp at h2
          · subst hab
            rw [if_neg (lt_irrefl a), if_pos rfl] at h1
            rcases lt_trichotomy a c with hac | hac | hac
            · simp [hac]
            · subst hac
              rw [if_neg (lt_irrefl a), if_pos rfl] at h2 ⊢
              exact ih bs cs h1 h2
            · rw [if_neg (lt_asymm hac), if_neg (fun h => absurd h (ne_of_gt hac))] at h2
              simp at h2
          · rw [if_neg (lt_asymm hab), if_neg (fun h => absurd h (ne_of_gt hab))] at h1
            simp at h1
  exact H a.data b.data c.data h1 h2⟩

instance : IsRefl String str_le := ⟨fun a => by
  show str_leb a.data a.data = true
  have H : ∀ (l : List Char), str_leb l l = true := by
    intro l
    induction l with
    | nil => rfl
    | cons a as ih => simp [str_leb, ih]
  exact H a.data⟩

instance : IsAntisymm String str_le := ⟨fun a b h1 h2 => by
  have H : ∀ (l m : List Char), str_leb l m = true → str_leb m l = true → l = m := by
    intro l
    induction l with
    | nil =>
      intro m h1 h2
      cases m with
      | nil => rfl
      | cons b bs => simp [str_leb] at h2
    | cons a as ih =>
      intro m h1 h2
      cases m with
      | nil => simp [str_leb] at h1
      | cons b bs =>
        simp only [str_leb] at h1 h2
        rcases lt_trichotomy a b with hab | hab | hab
        · rw [if_neg (lt_asymm hab), if_neg (fun h => absurd h (ne_of_gt hab))] at h2
          simp at h2
        · subst hab
          rw [if_neg (lt_irrefl a), if_pos rfl] at h1
          rw [if_neg (lt_irrefl a), if_pos rfl] at h2
          exact congrArg (a :: ·) (ih bs h1 h2)
        · rw [if_neg (lt_asymm hab), if_neg (fun h => absurd h (ne_of_gt hab))] at h1
          simp at h1
  exact String.ext (H a.data b.data h1 h2)⟩

/-! ### `Vec::dedup` (remove consecutive duplicates) and sorted output -/
/-- Rust `Vec::dedup`: collapse each maximal run of equal adjacent
elements to a single copy. -/
def rust_dedup {α : Type _} [DecidableEq α] : List α → List α
  | [] => []
  | [a] => [a]
  | a :: b :: rest => if a = b then rust_dedup (b :: rest) else a :: rust_dedup (b :: rest)

/-- `sort_unstable` followed by `dedup`, as both orchestrators finish
their vocabulary (parser.rs:325-326 and 435-436). -/
def sort_dedup (l : List String) : List String :=
  rust_dedup (List.insertionSort str_le l)

/-! ### Chunk partitioning (`slice::chunks`, parser.rs:288 and 386) -/
/-- Recursion skeleton for `slice::chunks` with a structural fuel bound:
the fuel starts at the list length and each step removes at least one
element, so the fuel never runs out at any call site. -/
def chunksOfAux {α : Type _} (sz : Nat) : Nat → List α → List (List α)
  | _, [] => []
  | 0, _ :: _ => []
  | fuel + 1, x :: xs => (x :: xs.take (sz - 1)) :: chunksOfAux sz fuel (xs.drop (sz - 1))

/-- Rust `slice::chunks(sz)`: consecutive chunks of `sz` elements, the
last chunk possibly shorter; the empty slice yields no chunks.  (Rust
panics when `sz = 0`; both call sites pass `max _ 1`.) -/
def chunksOf {α : Type _} (sz : Nat) (l : List α) : List (List α) :=
  chunksOfAux sz l.length l

/-- The chunk-size expression both orchestrators use:
`vec_lines.chunks((vec_lines.len() / num_workers).max(1))`. -/
def line_chunks {α : Type _} (vec_lines : List α) (num_workers : Nat) : List (List α) :=
  chunksOf (max (vec_lines.length / num_workers) 1) vec_lines

/-- The actual chunk sizes: `(n-1)/sz` full chunks of `sz`, then one final
chunk carrying what is left. -/
def chunk_sizes (n sz : Nat) : List Nat :=
  if n = 0 then [] else List.replicate ((n - 1) / sz) sz ++ [n - ((n - 1) / sz) * sz]

/-! ### Schema catalog (`format_string`, parser.rs:28-47)

The Rust source uses raw strings for most templates, so `r"(\\[<PID>\\])?"`
in the Linux arm contains two literal backslash characters, while the
non-raw HealthApp string `"<Time>\\|..."` contains single backslashes. -/
inductive LogFormat where
  | Linux
  | OpenStack
  | Spark
  | HDFS
  | HPC
  | Proxifier
  | Android
  | HealthApp
deriving DecidableEq

def format_string : LogFormat → String
  | .Linux => "<Month> <Date> <Time> <Level> <Component>(\\\\[<PID>\\\\])?: <Content>"
  | .OpenStack => "'<Logrecord> <Date> <Time> <Pid> <Level> <Component> \\[<ADDR>\\] <Content>'"
  | .Spark => "<Date> <Time> <Level> <Component>: <Content>"
  | .HDFS => "<Date> <Time> <Pid> <Level> <Component>: <Content>"
  | .HPC => "<LogId> <Node> <Component> <State> <Time> <Flag> <Content>"
  | .Proxifier => "[<Time>] <Program> - <Content>"
  | .Android => "<Date> <Time>  <Pid>  <Tid> <Level> <Component>: <Content>"
  | .HealthApp => "<Time>\\|<Component>\\|<Pid>\\|<Content>"

/-! ### Regex compilation (`regex_generator_helper` / `regex_generator`,
parser.rs:93-114)

`splitters_re = <[^<>]+>` finds each placeholder; the text between two
consecutive matches goes through `spaces_re.replace(_, "\s+")` — Rust's
`Regex::replace`, which replaces only the FIRST space run — and each
placeholder becomes `(?P<name>.*?)`.  Text before the first and after the
last placeholder is never pushed (`prev_end` starts as `None` and the loop
ends at the last match). -/
def not_angle (c : Char) : Bool := c != '<' && c != '>'

/-- One step of `splitters_re.find_iter`: the text skipped before the
match, the placeholder name (the match with `<`/`>` trimmed), and the
remainder after the match.  A `<` not followed by one-or-more non-angle
characters and a closing `>` is not a match, exactly as for `<[^<>]+>`. -/
def find_match : List Char → Option (List Char × List Char × List Char)
  | [] => none
  | c :: rest =>
    if c = '<' ∧ (rest.dropWhile not_angle).head? = some '>' ∧
        rest.takeWhile not_angle ≠ [] then
      some ([], rest.takeWhile not_angle, (rest.dropWhile not_angle).tail)
    else (find_match rest).map fun p => (c :: p.1, p.2.1, p.2.2)

/-- Rust `spaces_re.replace(s, r"\s+")` with `spaces_re = " +"`:
only the FIRST (leftmost, maximal) run of spaces is replaced, because
`Regex::replace` — unlike `replace_all` — substitutes a single match. -/
def replace_first_spaces : List Char → List Char
  | [] => []
  | c :: rest =>
    if c = ' ' then '\\' :: 's' :: '+' :: rest.dropWhile (· == ' ')
    else c :: replace_first_spaces rest

/-- The body of `regex_generator_helper`'s `find_iter` loop: `started`
records whether a previous placeholder was seen (`prev_end.is_some()`);
the text before the first placeholder is dropped, the text between two
placeholders goes through `replace_first_spaces`, and each placeholder
`<name>` is emitted as `(?P<name>.*?)`. -/
def helper_loop_fuel : Nat → List Char → Bool → List Char
  | 0, _, _ => []
  | fuel + 1, cs, started =>
    match find_match cs with
    | none => []
    | some (between, header, rest) =>
      (if started then replace_first_spaces between else []) ++
        "(?P<".data ++ header ++ ">.*?)".data ++ helper_loop_fuel fuel rest true

def helper_loop (cs : List Char) (started : Bool) : List Char :=
  helper_loop_fuel cs.length cs started

def regex_generator_helper (format : String) : String :=
  String.mk (helper_loop format.data false)

/-- `regex_generator` wraps the helper output in `^...$` and hands it to
`Regex::new`; we model the compiled regex by its pattern string. -/
def regex_generator (format : String) : String :=
  String.mk ('^' :: helper_loop format.data false ++ ['$'])

/-! ### Named capture groups of a pattern string

To compare compiled patterns semantically we extract the set of named
capture groups `(?P<name>...)` a regex pattern declares, honouring the
two lexical contexts that disable group syntax: a backslash escapes the
next character, and brackets delimit a character class (inside a class,
parentheses are literals). -/
def named_groups_fuel : Nat → List Char → Bool → List String
  | 0, _, _ => []
  | fuel + 1, cs, inClass =>
    match cs, inClass with
    | [], _ => []
    | '\\' :: _ :: rest, ic => named_groups_fuel fuel rest ic
    | ['\\'], _ => []
    | '(' :: '?' :: 'P' :: '<' :: rest, false =>
        String.mk (rest.takeWhile (· != '>')) ::
          named_groups_fuel fuel ((rest.dropWhile (· != '>')).drop 1) false
    | '[' :: rest, false => named_groups_fuel fuel rest true
    | ']' :: rest, true => named_groups_fuel fuel rest false
    | _ :: rest, ic => named_groups_fuel fuel rest ic

def named_groups (s : String) : List String :=
  named_groups_fuel s.data.length s.data false

/-! ### N-gram accumulation (`process_dictionary_builder_line`,
parser.rs:171-258)

The source function receives the raw line and lookahead line and calls
`token_splitter` on both; tokenization is deterministic, so we pass the
already-extracted token lists (`tokens` for the current line,
`next_tokens` for the lookahead; a missing lookahead line and a lookahead
line with no tokens both yield `(None, None)` in the source and are both
represented by `next_tokens = []`).  The `Map`/`Set` wrapper enum
(`TypeHash`/`TypeDash`, `TypeVec`/`TypeDSet`) performs identical
operations in both arms — entry-or-default increment and
insert-if-absent — so one model covers both container families. -/
abbrev Freq := String → Nat

def bump (m : Freq) (k : String) : Freq := fun x => if x = k then m x + 1 else m x

def pair_key (a b : String) : String := a ++ "^" ++ b

def triple_key (a b c : String) : String := a ++ "^" ++ b ++ "^" ++ c

/-- `slice::windows(2)` as the list of adjacent pairs. -/
def windows2 {α : Type _} (l : List α) : List (α × α) := l.zip l.tail

/-- `slice::windows(3)` as the list of adjacent triples. -/
def windows3 {α : Type _} (l : List α) : List (α × α × α) :=
  l.zip (l.tail.zip l.tail.tail)

def add_pairs (m : Freq) (l : List String) : Freq :=
  (windows2 l).foldl (fun acc p => bump acc (pair_key p.1 p.2)) m

def add_triples (m : Freq) (l : List String) : Freq :=
  (windows3 l).foldl (fun acc t => bump acc (triple_key t.1 t.2.1 t.2.2)) m

/-- `if !all_token_list.contains(t) { all_token_list.push(t) }` (and the
`DashSet` arm's contains/insert pair). -/
def insert_if_absent (v : List String) (t : String) : List String :=
  if t ∈ v then v else v ++ [t]

structure DictState where
  dbl : Freq
  trpl : Freq
  all_token_list : List String

def process_dictionary_builder_line (tokens next_tokens : List String)
    (prev1 prev2 : Option String) (st : DictState) :
    (Option String × Option String) × DictState :=
  let np : Option String × Option String :=
    match next_tokens with
    | [] => (none, none)
    | [a] => (some a, none)
    | a :: b :: _ => (some a, some b)
  if tokens = [] then ((none, none), st)
  else
    let vocab := tokens.foldl insert_if_absent st.all_token_list
    let last1 : Option String :=
      match tokens.length with
      | 0 => none
      | n + 1 => tokens[n]?
    let last2 : Option String :=
      match tokens.length with
      | 0 => none
      | 1 => none
      | n + 2 => tokens[n]?
    let tokens2 :=
      (match prev1 with
       | none => tokens
       | some x => x :: tokens) ++
      (match np.1 with
       | none => []
       | some x => [x])
    let dbl2 := add_pairs st.dbl tokens2
    let tokens3 :=
      (match prev2 with
       | none => tokens2
       | some x => x :: tokens2) ++
      (match np.2 with
       | none => []
       | some x => [x])
    let trpl2 := add_triples st.trpl tokens3
    ((last1, last2), ⟨dbl2, trpl2, vocab⟩)

/-! ### Workers and orchestrators (parser.rs:260-459)

`worker` (parser.rs:330-353) walks its chunk with a one-ahead peek and
threads the carry `(prev1, prev2)`; `worker_conc` (parser.rs:440-459)
executes the same walk against the `TypeDash` containers, which start
from clones of the still-empty shared maps, so each worker accumulates
privately in both variants. -/
def worker_go {α : Type _} (tok : α → List String) :
    List α → Option String → Option String → DictState → DictState
  | [], _, _, st => st
  | line :: rest, prev1, prev2, st =>
    let next_tokens :=
      match rest.head? with
      | none => []
      | some next_line => tok next_line
    let r := process_dictionary_builder_line (tok line) next_tokens prev1 prev2 st
    worker_go tok rest r.1.1 r.1.2 r.2

def empty_dict_state : DictState := ⟨fun _ => 0, fun _ => 0, []⟩

def worker {α : Type _} (tok : α → List String) (blocks : List α) : DictState :=
  worker_go tok blocks none none empty_dict_state

def worker_conc {α : Type _} (tok : α → List String) (blocks : List α) : DictState :=
  worker_go tok blocks none none empty_dict_state

/-- Merging partial tables: `*dbl.entry(key).or_default() += value;`
summed over all received partials, starting from the empty map. -/
def merge_freqs (ms : List Freq) : Freq := fun k => (ms.map (fun m => m k)).sum

/-- `dictionary_builder` (parser.rs:260-328): read lines (an unopenable
file contributes none), chunk, run `worker` per chunk, sum the partial
tables, concatenate the partial vocabularies, then sort and dedup. -/
def dictionary_builder {α : Type _} (tok : α → List String)
    (file : Option (List α)) (num_threads : Option Nat) :
    Freq × Freq × List String :=
  let vec_lines : List α :=
    match file with
    | none => []
    | some ls => ls
  let num_workers : Nat :=
    match num_threads with
    | some x => x
    | none => 8
  let partials := (line_chunks vec_lines num_workers).map (worker tok)
  (merge_freqs (partials.map DictState.dbl),
   merge_freqs (partials.map DictState.trpl),
   sort_dedup ((partials.map DictState.all_token_list).flatten))

/-- `dictionary_builder_conc` (parser.rs:355-438): identical loading and
chunking; each worker's `DashMap`/`DashSet` clones start empty and are
merged back into the orchestrator's containers after the join, the
`DashMap`s are then projected into plain `HashMap`s and the `DashSet`
(set semantics: inserting an existing token is a no-op) is dumped into a
vector, sorted and deduped. -/
def dictionary_builder_conc {α : Type _} (tok : α → List String)
    (file : Option (List α)) (num_threads : Option Nat) :
    Freq × Freq × List String :=
  let vec_lines : List α :=
    match file with
    | none => []
    | some ls => ls
  let num_workers : Nat :=
    match num_threads with
    | some x => x
    | none => 8
  let partials := (line_chunks vec_lines num_workers).map (worker_conc tok)
  let dbl_dash := merge_freqs (partials.map DictState.dbl)
  let trpl_dash := merge_freqs (partials.map DictState.trpl)
  let token_set :=
    ((partials.map DictState.all_token_list).flatten).foldl insert_if_absent []
  (fun k => dbl_dash k, fun k => trpl_dash k, sort_dedup token_set)

/-- `parse_raw_single` (parser.rs:512-516); the console summary print is
a side effect with no bearing on the returned triple. -/
def parse_raw_single {α : Type _} (tok : α → List String)
    (file : Option (List α)) (num_threads : Option Nat) :
    Freq × Freq × List String :=
  dictionary_builder tok file num_threads

/-- `parse_raw_conc` (parser.rs:518-522). -/
def parse_raw_conc {α : Type _} (tok : α → List String)
    (file : Option (List α)) (num_threads : Option Nat) :
    Freq × Freq × List String :=
  dictionary_builder_conc tok file num_threads

/-! ### The end-to-end Linux sample (spec §8 scenario 6) -/
/-- Modelled from the spec: the repository's `data/from_paper.log`
fixture is not under `src/`; per the spec it holds the five HDFS-URI
content lines in source order 21876, 14584, 0, 7292, 29168.  The
scenario's stated outcomes (each consecutive bigram has count 2, each
consecutive trigram has count 1) and the repository's own test oracle
(parser.rs:535-545) are produced by exactly this five-line stream, one
occurrence of each line, processed as a single chunk: every adjacent
pair is counted once through the lookahead and once through the carry,
every adjacent triple once.  Under the Linux schema each line's
`Content` field extracts to the single URI token, so we record each
line by that token. -/
def from_paper_lines : List String :=
  ["hdfs://hostname/2kSOSP.log:21876+7292",
   "hdfs://hostname/2kSOSP.log:14584+7292",
   "hdfs://hostname/2kSOSP.log:0+7292",
   "hdfs://hostname/2kSOSP.log:7292+7292",
   "hdfs://hostname/2kSOSP.log:29168+7292"]

/-- Modelled from the spec: `token_splitter` on a fixture line under the
Linux schema yields exactly the one URI token (spec §8 scenario 6 and
§4.3; the Linux redactors leave the URI untouched). -/
def fixture_tok (line : String) : List String := [line]

/-- `[prev1?]` / `[prev2?]` notation from the spec: an optional carry
token as a zero- or one-element sequence. -/
def opt_to_list : Option String → List String
  | none => []
  | some x => [x]

/-! ### Structure of compiled templates -/
def angle_free (l : List Char) : Prop := ∀ c ∈ l, not_angle c = true

instance : DecidablePred angle_free := fun l =>
  inferInstanceAs (Decidable (∀ c ∈ l, not_angle c = true))

def group_of (h : List Char) : List Char := "(?P<".data ++ h ++ ">.*?)".data

def template_rest (ps : List (List Char × List Char)) : List Char :=
  ps.foldr (fun p acc => p.1 ++ '<' :: (p.2 ++ '>' :: acc)) []

def assemble_template (h : List Char) (ps : List (List Char × List Char)) : List Char :=
  '<' :: (h ++ '>' :: template_rest ps)

def compiled_rest (ps : List (List Char × List Char)) : List Char :=
  ps.foldr (fun p acc => replace_first_spaces p.1 ++ group_of p.2 ++ acc) []

def compiled_groups (h : List Char) (ps : List (List Char × List Char)) : List Char :=
  group_of h ++ compiled_rest ps

def demo_lines : List String :=
  ["l0", "l1", "l2", "l3", "l4", "l5", "l6", "l7", "l8", "l9"]

/-! ### Lemmas and claim theorems -/

theorem rust_dedup_sublist {α : Type _} [DecidableEq α] (l : List α) :
    List.Sublist (rust_dedup l) l := by
  induction l using rust_dedup.induct with
  | case1 => simp [rust_dedup]
  | case2 a => simp [rust_dedup]
  | case3 b rest ih =>
    simpa [rust_dedup] using ih.cons b
  | case4 a b rest hab ih =>
    simpa [rust_dedup, hab] using ih.cons₂ a

theorem mem_rust_dedup {α : Type _} [DecidableEq α] {x : α} {l : List α} :
    x ∈ rust_dedup l ↔ x ∈ l := by
  constructor
  · exact fun h => (rust_dedup_sublist l).subset h
  · intro hx
    induction l using rust_dedup.induct with
    | case1 => simp at hx
    | case2 a => simpa [rust_dedup] using hx
    | case3 b rest ih =>
      rw [rust_dedup, if_pos rfl]
      rcases List.mem_cons.mp hx with h | h
      · exact ih (h ▸ List.mem_cons_self _ _)
      · exact ih h
    | case4 a b rest hab ih =>
      rw [rust_dedup, if_neg hab]
      rcases List.mem_cons.mp hx with h | h
      · exact h ▸ List.mem_cons_self _ _
      · exact List.mem_cons_of_mem _ (ih h)

theorem rust_dedup_sorted {l : List String} (h : l.Sorted str_le) :
    (rust_dedup l).Sorted str_le :=
  h.sublist (rust_dedup_sublist l)

theorem rust_dedup_nodup {l : List String} (h : l.Sorted str_le) :
    (rust_dedup l).Nodup := by
  induction l using rust_dedup.induct with
  | case1 => simp [rust_dedup]
  | case2 a => simp [rust_dedup]
  | case3 b rest ih =>
    rw [rust_dedup, if_pos rfl]
    exact ih h.of_cons
  | case4 a b rest hab ih =>
    rw [rust_dedup, if_neg hab]
    refine List.nodup_cons.mpr ⟨?_, ih h.of_cons⟩
    intro hmem
    have hmem' : a ∈ b :: rest := mem_rust_dedup.mp hmem
    have hle1 : str_le a b := (List.sorted_cons.mp h).1 b (List.mem_cons_self _ _)
    rcases List.mem_cons.mp hmem' with h1 | h1
    · exact hab h1
    · have hle2 : str_le b a :=
        (List.sorted_cons.mp h.of_cons).1 a h1
      exact hab (antisymm hle1 hle2)

theorem sort_dedup_sorted (l : List String) : (sort_dedup l).Sorted str_le :=
  rust_dedup_sorted (List.sorted_insertionSort str_le l)

theorem sort_dedup_nodup (l : List String) : (sort_dedup l).Nodup :=
  rust_dedup_nodup (List.sorted_insertionSort str_le l)

theorem mem_sort_dedup {x : String} {l : List String} :
    x ∈ sort_dedup l ↔ x ∈ l :=
  mem_rust_dedup.trans (List.perm_insertionSort str_le l).mem_iff

theorem sort_dedup_congr {l₁ l₂ : List String}
    (h : ∀ x, x ∈ l₁ ↔ x ∈ l₂) : sort_dedup l₁ = sort_dedup l₂ := by
  refine List.eq_of_perm_of_sorted ?_ (sort_dedup_sorted l₁) (sort_dedup_sorted l₂)
  refine (List.perm_ext_iff_of_nodup (sort_dedup_nodup l₁) (sort_dedup_nodup l₂)).mpr ?_
  intro a
  rw [mem_sort_dedup, mem_sort_dedup]
  exact h a

theorem chunksOfAux_fuel {α : Type _} (sz : Nat) :
    ∀ (f1 f2 : Nat) (l : List α), l.length ≤ f1 → l.length ≤ f2 →
      chunksOfAux sz f1 l = chunksOfAux sz f2 l := by
  intro f1
  induction f1 with
  | zero =>
    intro f2 l h1 _
    have hl : l = [] := List.eq_nil_of_length_eq_zero (by omega)
    subst hl
    cases f2 <;> rfl
  | succ f1 ih =>
    intro f2 l h1 h2
    cases l with
    | nil => cases f2 <;> rfl
    | cons x xs =>
      cases f2 with
      | zero => simp at h2
      | succ g =>
        rw [chunksOfAux, chunksOfAux]
        have hd : (xs.drop (sz - 1)).length ≤ xs.length := by
          simp [List.length_drop]
        simp only [List.length_cons] at h1 h2
        rw [ih g (xs.drop (sz - 1)) (by omega) (by omega)]

theorem chunksOf_nil {α : Type _} (sz : Nat) : chunksOf sz ([] : List α) = [] := rfl

theorem chunksOf_cons {α : Type _} (sz : Nat) (x : α) (xs : List α) :
    chunksOf sz (x :: xs) = (x :: xs.take (sz - 1)) :: chunksOf sz (xs.drop (sz - 1)) := by
  rw [chunksOf, chunksOf, List.length_cons, chunksOfAux]
  have hd : (xs.drop (sz - 1)).length ≤ xs.length := by
    simp [List.length_drop]
  rw [chunksOfAux_fuel sz xs.length (xs.drop (sz - 1)).length _ hd le_rfl]

theorem chunksOf_flatten {α : Type _} (sz : Nat) (l : List α) :
    (chunksOf sz l).flatten = l := by
  suffices H : ∀ (n : Nat) (l : List α), l.length ≤ n → (chunksOf sz l).flatten = l from
    H l.length l le_rfl
  intro n
  induction n with
  | zero =>
    intro l hl
    have : l = [] := List.eq_nil_of_length_eq_zero (by omega)
    subst this
    rfl
  | succ n ih =>
    intro l hl
    cases l with
    | nil => rfl
    | cons x xs =>
      rw [chunksOf_cons, List.flatten_cons]
      rw [ih (xs.drop (sz - 1)) (by simp only [List.length_cons] at hl; simp [List.length_drop]; omega)]
      simp [List.take_append_drop]

theorem chunk_sizes_step {n sz : Nat} (hsz : 0 < sz) (h : sz < n) :
    chunk_sizes n sz = sz :: chunk_sizes (n - sz) sz := by
  have hd : n - 1 = (n - sz - 1) + sz := by omega
  have hdiv2 : (n - 1) / sz = (n - sz - 1) / sz + 1 := by
    rw [hd]; exact Nat.add_div_right _ hsz
  rw [chunk_sizes, chunk_sizes, if_neg (by omega), if_neg (by omega), hdiv2,
    List.replicate_succ, List.cons_append]
  have hlast : n - ((n - sz - 1) / sz + 1) * sz = n - sz - (n - sz - 1) / sz * sz := by
    rw [Nat.succ_mul]
    have hmul : (n - sz - 1) / sz * sz ≤ n - sz - 1 := Nat.div_mul_le_self _ _
    omega
  rw [hlast]

theorem chunksOf_map_length {α : Type _} {sz : Nat} (hsz : 0 < sz) (l : List α) :
    (chunksOf sz l).map List.length = chunk_sizes l.length sz := by
  suffices H : ∀ (n : Nat) (l : List α), l.length ≤ n →
      (chunksOf sz l).map List.length = chunk_sizes l.length sz from
    H l.length l le_rfl
  intro n
  induction n with
  | zero =>
    intro l hl
    have : l = [] := List.eq_nil_of_length_eq_zero (by omega)
    subst this
    simp [chunksOf_nil, chunk_sizes]
  | succ n ih =>
    intro l hl
    cases l with
    | nil => simp [chunksOf_nil, chunk_sizes]
    | cons x xs =>
      simp only [List.length_cons] at hl
      rw [chunksOf_cons]
      by_cases hle : xs.length ≤ sz - 1
      · have hdrop : xs.drop (sz - 1) = [] := by
          apply List.drop_eq_nil_of_le
          exact hle
        rw [hdrop, chunksOf_nil]
        simp only [List.map_cons, List.map_nil, List.length_cons]
        rw [chunk_sizes, if_neg (by omega)]
        have h0 : (xs.length + 1 - 1) / sz = 0 := Nat.div_eq_of_lt (by omega)
        rw [h0]
        simp [List.length_take, Nat.min_eq_right hle]
      · push_neg at hle
        have hlen : (xs.drop (sz - 1)).length = xs.length - (sz - 1) := by
          simp [List.length_drop]
        have hfirst : (x :: xs.take (sz - 1)).length = sz := by
          simp only [List.length_cons, List.length_take]
          rw [Nat.min_eq_left (by omega)]
          omega
        rw [List.map_cons, hfirst, ih (xs.drop (sz - 1)) (by omega), hlen, List.length_cons]
        rw [chunk_sizes_step hsz (show sz < xs.length + 1 by omega)]
        have heq : xs.length - (sz - 1) = xs.length + 1 - sz := by omega
        rw [heq]

theorem find_match_length {cs b h r : List Char}
    (hm : find_match cs = some (b, h, r)) : r.length < cs.length := by
  induction cs generalizing b h r with
  | nil => simp [find_match] at hm
  | cons c rest ih =>
    rw [find_match] at hm
    split at hm
    · simp only [Option.some.injEq, Prod.mk.injEq] at hm
      obtain ⟨-, -, hr⟩ := hm
      subst hr
      have h1 : (rest.dropWhile not_angle).length ≤ rest.length :=
        (List.dropWhile_sublist _).length_le
      have h2 : ((rest.dropWhile not_angle).tail).length ≤ (rest.dropWhile not_angle).length := by
        cases rest.dropWhile not_angle <;> simp
      simp only [List.length_cons]
      omega
    · rcases hfm : find_match rest with _ | ⟨p1, p2, p3⟩
      · rw [hfm] at hm; simp at hm
      · rw [hfm] at hm
        simp only [Option.map_some', Option.some.injEq, Prod.mk.injEq] at hm
        obtain ⟨-, -, hr⟩ := hm
        subst hr
        have := ih hfm
        simp only [List.length_cons]
        omega

theorem helper_loop_fuel_eq :
    ∀ (f1 f2 : Nat) (cs : List Char) (st : Bool), cs.length ≤ f1 → cs.length ≤ f2 →
      helper_loop_fuel f1 cs st = helper_loop_fuel f2 cs st := by
  intro f1
  induction f1 with
  | zero =>
    intro f2 cs st h1 _
    have hcs : cs = [] := List.eq_nil_of_length_eq_zero (by omega)
    subst hcs
    cases f2 <;> rfl
  | succ f1 ih =>
    intro f2 cs st h1 h2
    cases f2 with
    | zero =>
      have hcs : cs = [] := List.eq_nil_of_length_eq_zero (by omega)
      subst hcs
      rfl
    | succ g =>
      rw [helper_loop_fuel, helper_loop_fuel]
      rcases hfm : find_match cs with _ | ⟨b, h, r⟩
      · rfl
      · have hr := find_match_length hfm
        dsimp only
        rw [ih g r true (by omega) (by omega)]

theorem helper_loop_eq_none {cs : List Char} (hfm : find_match cs = none) (st : Bool) :
    helper_loop cs st = [] := by
  cases cs with
  | nil => rfl
  | cons c rest =>
    rw [helper_loop, List.length_cons, helper_loop_fuel, hfm]

theorem helper_loop_eq_some {cs b h r : List Char}
    (hfm : find_match cs = some (b, h, r)) (st : Bool) :
    helper_loop cs st = (if st then replace_first_spaces b else []) ++
      "(?P<".data ++ h ++ ">.*?)".data ++ helper_loop r true := by
  cases cs with
  | nil => simp [find_match] at hfm
  | cons c rest =>
    rw [helper_loop, List.length_cons, helper_loop_fuel, hfm]
    have hr := find_match_length hfm
    simp only [List.length_cons] at hr
    dsimp only
    rw [helper_loop, helper_loop_fuel_eq rest.length r.length r true (by omega) le_rfl]

/-! ### Counting lemmas for the n-gram passes -/
theorem foldl_bump_apply {β : Type _} (key : β → String) (l : List β) (m : Freq) (k : String) :
    (l.foldl (fun acc x => bump acc (key x)) m) k = m k + (l.map key).count k := by
  induction l generalizing m with
  | nil => simp
  | cons a rest ih =>
    rw [List.foldl_cons, ih, List.map_cons, List.count_cons]
    simp only [bump, beq_iff_eq]
    by_cases hk : k = key a
    · subst hk
      simp
      omega
    · rw [if_neg hk, if_neg (fun h => hk h.symm)]
      omega

theorem add_pairs_apply (m : Freq) (l : List String) :
    add_pairs m l = fun k => m k + ((windows2 l).map (fun p => pair_key p.1 p.2)).count k := by
  funext k
  exact foldl_bump_apply (fun p => pair_key p.1 p.2) (windows2 l) m k

theorem add_triples_apply (m : Freq) (l : List String) :
    add_triples m l =
      fun k => m k + ((windows3 l).map (fun t => triple_key t.1 t.2.1 t.2.2)).count k := by
  funext k
  exact foldl_bump_apply (fun t => triple_key t.1 t.2.1 t.2.2) (windows3 l) m k

theorem process_line_dbl (T L : List String) (p1 p2 : Option String)
    (st : DictState) (hT : T ≠ []) :
    (process_dictionary_builder_line T L p1 p2 st).2.dbl =
      fun k => st.dbl k +
        ((windows2 (opt_to_list p1 ++ T ++ L.take 1)).map
          (fun p => pair_key p.1 p.2)).count k := by
  rw [process_dictionary_builder_line.eq_def, if_neg hT]
  simp only
  rw [add_pairs_apply]
  cases p1 <;> rcases L with _ | ⟨a, _ | ⟨b, L'⟩⟩ <;>
    simp [opt_to_list, List.append_assoc]

theorem process_line_trpl (T L : List String) (p1 p2 : Option String)
    (st : DictState) (hT : T ≠ []) :
    (process_dictionary_builder_line T L p1 p2 st).2.trpl =
      fun k => st.trpl k +
        ((windows3 (opt_to_list p2 ++ opt_to_list p1 ++ T ++ L.take 2)).map
          (fun t => triple_key t.1 t.2.1 t.2.2)).count k := by
  rw [process_dictionary_builder_line.eq_def, if_neg hT]
  simp only
  rw [add_triples_apply]
  cases p1 <;> cases p2 <;> rcases L with _ | ⟨a, _ | ⟨b, L'⟩⟩ <;>
    simp [opt_to_list, List.append_assoc]

theorem getLast?_dropLast_cons_cons {α : Type _} (t u : α) (us : List α) :
    (t :: u :: us).dropLast.getLast? = (t :: u :: us)[us.length]? := by
  induction us generalizing t u with
  | nil => rfl
  | cons v vs ih =>
    have hstep : (t :: u :: v :: vs).dropLast = t :: (u :: v :: vs).dropLast := rfl
    rw [hstep]
    have hdl : (u :: v :: vs).dropLast = u :: (v :: vs).dropLast := rfl
    rw [hdl, List.getLast?_cons_cons, ← hdl, ih]
    simp

theorem process_line_carry (T L : List String) (p1 p2 : Option String)
    (st : DictState) (hT : T ≠ []) :
    (process_dictionary_builder_line T L p1 p2 st).1 =
      (T.getLast?, T.dropLast.getLast?) := by
  rw [process_dictionary_builder_line.eq_def, if_neg hT]
  simp only
  rcases T with _ | ⟨t, _ | ⟨u, us⟩⟩
  · exact absurd rfl hT
  · simp
  · simp only [List.length_cons]
    rw [Prod.mk.injEq]
    refine ⟨?_, ?_⟩
    · rw [List.getLast?_eq_getElem?]
      simp
    · rw [getLast?_dropLast_cons_cons]

/-! ### Vocabulary membership through the merge paths -/
theorem mem_foldl_insert_if_absent (l : List String) (s : List String) (x : String) :
    x ∈ l.foldl insert_if_absent s ↔ x ∈ s ∨ x ∈ l := by
  induction l generalizing s with
  | nil => simp
  | cons a rest ih =>
    rw [List.foldl_cons, ih]
    by_cases ha : a ∈ s
    · simp only [insert_if_absent, if_pos ha, List.mem_cons]
      constructor
      · rintro (h | h)
        · exact Or.inl h
        · exact Or.inr (Or.inr h)
      · rintro (h | h | h)
        · exact Or.inl h
        · exact Or.inl (h ▸ ha)
        · exact Or.inr h
    · simp only [insert_if_absent, if_neg ha, List.mem_append, List.mem_cons,
        List.not_mem_nil, or_false]
      tauto

theorem sort_dedup_foldl_insert (l : List String) :
    sort_dedup (l.foldl insert_if_absent []) = sort_dedup l := by
  refine sort_dedup_congr fun x => ?_
  rw [mem_foldl_insert_if_absent]
  simp

theorem takeWhile_angle_free {h : List Char} (hh : angle_free h) (rest : List Char) :
    (h ++ '>' :: rest).takeWhile not_angle = h ∧
    (h ++ '>' :: rest).dropWhile not_angle = '>' :: rest := by
  induction h with
  | nil => constructor <;> rfl
  | cons c h' ih =>
    have hc : not_angle c = true := hh c (List.mem_cons_self _ _)
    have ih' := ih (fun x hx => hh x (List.mem_cons_of_mem _ hx))
    constructor
    · rw [List.cons_append, List.takeWhile_cons, hc]
      simp [ih'.1]
    · rw [List.cons_append, List.dropWhile_cons, hc]
      simp [ih'.2]

theorem find_match_placeholder {h : List Char} (hne : h ≠ []) (hh : angle_free h)
    (rest : List Char) :
    find_match ('<' :: (h ++ '>' :: rest)) = some ([], h, rest) := by
  have hsplit := takeWhile_angle_free hh rest
  rw [find_match, if_pos ⟨rfl, by rw [hsplit.2]; rfl, by rw [hsplit.1]; exact hne⟩]
  rw [hsplit.1, hsplit.2]
  rfl

theorem find_match_none_of_no_lt {s : List Char} (hs : '<' ∉ s) :
    find_match s = none := by
  induction s with
  | nil => rfl
  | cons c rest ih =>
    have hc : c ≠ '<' := fun h => hs (h ▸ List.mem_cons_self _ _)
    rw [find_match, if_neg (fun hcon => hc hcon.1),
      ih (fun h => hs (List.mem_cons_of_mem _ h))]
    rfl

theorem find_match_prepend {s : List Char} (hs : '<' ∉ s) (cs : List Char) :
    find_match (s ++ cs) = (find_match cs).map fun p => (s ++ p.1, p.2.1, p.2.2) := by
  induction s with
  | nil =>
    rcases hfm : find_match cs with _ | ⟨b, h, r⟩ <;> simp [hfm]
  | cons c s' ih =>
    have hc : c ≠ '<' := fun h => hs (h ▸ List.mem_cons_self _ _)
    rw [List.cons_append, find_match, if_neg (fun hcon => hc hcon.1),
      ih (fun h => hs (List.mem_cons_of_mem _ h))]
    rcases hfm : find_match cs with _ | ⟨b, h, r⟩ <;> simp [hfm]

theorem dropWhile_ne_nil_append (l' : List Char) {l : List Char}
    (h : l.dropWhile not_angle ≠ []) :
    (l ++ l').takeWhile not_angle = l.takeWhile not_angle ∧
    (l ++ l').dropWhile not_angle = l.dropWhile not_angle ++ l' := by
  induction l with
  | nil => exact absurd rfl h
  | cons c rest ih =>
    cases hc : not_angle c with
    | false =>
      constructor <;> simp [List.takeWhile_cons, List.dropWhile_cons, hc]
    | true =>
      have h' : rest.dropWhile not_angle ≠ [] := by
        intro hcon
        apply h
        simp [List.dropWhile_cons, hc, hcon]
      have hih := ih h'
      constructor <;> simp [List.takeWhile_cons, List.dropWhile_cons, hc, hih.1, hih.2]

theorem dropWhile_nil_append {l l' : List Char} (h : l.dropWhile not_angle = []) :
    (l ++ l').dropWhile not_angle = l'.dropWhile not_angle := by
  induction l with
  | nil => rfl
  | cons c rest ih =>
    rw [List.dropWhile_cons] at h
    cases hc : not_angle c with
    | false => rw [hc] at h; simp at h
    | true =>
      rw [hc] at h
      simp only [if_true] at h
      rw [List.cons_append, List.dropWhile_cons, hc]
      simp only [if_true]
      exact ih h

theorem find_match_append {suf : List Char} (h2 : '<' ∉ suf) (h3 : '>' ∉ suf) :
    ∀ cs, find_match (cs ++ suf) = (find_match cs).map fun p => (p.1, p.2.1, p.2.2 ++ suf) := by
  intro cs
  induction cs with
  | nil =>
    rw [List.nil_append, find_match_none_of_no_lt h2]
    rfl
  | cons c rest ih =>
    rw [List.cons_append, find_match, find_match]
    by_cases hdw : rest.dropWhile not_angle = []
    · have hall : ∀ x ∈ suf, not_angle x = true := fun x hx => by
        have hx1 : x ≠ '<' := fun hh => h2 (hh ▸ hx)
        have hx2 : x ≠ '>' := fun hh => h3 (hh ▸ hx)
        simp [not_angle, hx1, hx2]
      have hsufnil : suf.dropWhile not_angle = [] := by
        rw [List.dropWhile_eq_nil_iff]
        exact hall
      have hdw2 : (rest ++ suf).dropWhile not_angle = [] := by
        rw [dropWhile_nil_append hdw, hsufnil]
      rw [if_neg (by rw [hdw2]; rintro ⟨-, hcon, -⟩; simp at hcon),
        if_neg (by rw [hdw]; rintro ⟨-, hcon, -⟩; simp at hcon), ih]
      rcases find_match rest with _ | ⟨b, h, r⟩ <;> simp
    · have hsp := dropWhile_ne_nil_append suf hdw
      by_cases hc : c = '<' ∧ (rest.dropWhile not_angle).head? = some '>' ∧
          rest.takeWhile not_angle ≠ []
      · have hc2 : c = '<' ∧ ((rest ++ suf).dropWhile not_angle).head? = some '>' ∧
            (rest ++ suf).takeWhile not_angle ≠ [] := by
          refine ⟨hc.1, ?_, ?_⟩
          · rw [hsp.2]
            rcases hx : rest.dropWhile not_angle with _ | ⟨d, tail⟩
            · exact absurd hx hdw
            · rw [hx] at hc
              simpa using hc.2.1
          · rw [hsp.1]
            exact hc.2.2
        rw [if_pos hc2, if_pos hc, hsp.1, hsp.2]
        rcases hx : rest.dropWhile not_angle with _ | ⟨d, tail⟩
        · exact absurd hx hdw
        · simp
      · have hc2 : ¬(c = '<' ∧ ((rest ++ suf).dropWhile not_angle).head? = some '>' ∧
            (rest ++ suf).takeWhile not_angle ≠ []) := by
          intro hcon
          apply hc
          refine ⟨hcon.1, ?_, ?_⟩
          · rw [hsp.2] at hcon
            rcases hx : rest.dropWhile not_angle with _ | ⟨d, tail⟩
            · exact absurd hx hdw
            · rw [hx] at hcon
              simpa using hcon.2.1
          · rw [hsp.1] at hcon
            exact hcon.2.2
        rw [if_neg hc2, if_neg hc, ih]
        rcases find_match rest with _ | ⟨b, h, r⟩ <;> simp

theorem helper_loop_append {suf : List Char} (h2 : '<' ∉ suf) (h3 : '>' ∉ suf)
    (cs : List Char) (st : Bool) : helper_loop (cs ++ suf) st = helper_loop cs st := by
  suffices H : ∀ (n : Nat) (cs : List Char) (st : Bool), cs.length ≤ n →
      helper_loop (cs ++ suf) st = helper_loop cs st from H cs.length cs st le_rfl
  intro n
  induction n with
  | zero =>
    intro cs st hl
    have hcs : cs = [] := List.eq_nil_of_length_eq_zero (by omega)
    subst hcs
    rw [List.nil_append, helper_loop_eq_none (find_match_none_of_no_lt h2)]
    rfl
  | succ n ih =>
    intro cs st hl
    rcases hfm : find_match cs with _ | ⟨b, h, r⟩
    · rw [helper_loop_eq_none hfm,
        helper_loop_eq_none (by rw [find_match_append h2 h3, hfm]; rfl)]
    · have hfm2 : find_match (cs ++ suf) = some (b, h, r ++ suf) := by
        rw [find_match_append h2 h3, hfm]
        rfl
      rw [helper_loop_eq_some hfm st, helper_loop_eq_some hfm2 st]
      have hr := find_match_length hfm
      rw [ih r true (by omega)]

theorem helper_loop_prepend {pre : List Char} (h1 : '<' ∉ pre) (cs : List Char) :
    helper_loop (pre ++ cs) false = helper_loop cs false := by
  rcases hfm : find_match cs with _ | ⟨b, h, r⟩
  · rw [helper_loop_eq_none hfm,
      helper_loop_eq_none (by rw [find_match_prepend h1, hfm]; rfl)]
  · have hfm2 : find_match (pre ++ cs) = some (pre ++ b, h, r) := by
      rw [find_match_prepend h1, hfm]
      rfl
    rw [helper_loop_eq_some hfm, helper_loop_eq_some hfm2]
    simp

theorem angle_free_no_lt {l : List Char} (h : angle_free l) : '<' ∉ l := by
  intro hmem
  have := h '<' hmem
  simp [not_angle] at this

theorem helper_loop_template_rest (ps : List (List Char × List Char))
    (hps : ∀ p ∈ ps, angle_free p.1 ∧ p.2 ≠ [] ∧ angle_free p.2) :
    helper_loop (template_rest ps) true = compiled_rest ps := by
  induction ps with
  | nil => rfl
  | cons p ps' ih =>
    obtain ⟨hs, hne, hh⟩ := hps p (List.mem_cons_self _ _)
    have hfm : find_match (template_rest (p :: ps')) = some (p.1, p.2, template_rest ps') := by
      show find_match (p.1 ++ '<' :: (p.2 ++ '>' :: template_rest ps')) = _
      rw [find_match_prepend (angle_free_no_lt hs), find_match_placeholder hne hh]
      simp
    rw [helper_loop_eq_some hfm, ih (fun q hq => hps q (List.mem_cons_of_mem _ hq))]
    simp [compiled_rest, group_of, List.append_assoc]

theorem helper_loop_assembled (h : List Char) (ps : List (List Char × List Char))
    (hne : h ≠ []) (hh : angle_free h)
    (hps : ∀ p ∈ ps, angle_free p.1 ∧ p.2 ≠ [] ∧ angle_free p.2) :
    helper_loop (assemble_template h ps) false = compiled_groups h ps := by
  have hfm : find_match (assemble_template h ps) = some ([], h, template_rest ps) :=
    find_match_placeholder hne hh _
  rw [helper_loop_eq_some hfm, helper_loop_template_rest ps hps]
  simp [compiled_groups, group_of, List.append_assoc]

/-- C1: for every call to `process_dictionary_builder_line` where the
current line extracts to a non-empty token sequence `T`, with carry
`(prev1, prev2)` and lookahead tokens `L`, every length-2 window of
`[prev1?] ++ T ++ [L[0]?]` increments the bigram count of its `^`-joined
key by exactly 1 (the new count at each key exceeds the old one by the
number of windows carrying that key), every length-3 window of
`[prev2?] ++ [prev1?] ++ T ++ [L[0]?] ++ [L[1]?]` increments the trigram
count of its `^`-joined key by exactly 1, and the call returns
`(last T, second-last T)` — `(T[0], none)` when `|T| = 1`. -/
theorem c1_process_line_ngram_passes (T L : List String) (p1 p2 : Option String)
    (st : DictState) (hT : T ≠ []) :
    ((process_dictionary_builder_line T L p1 p2 st).2.dbl =
      fun k => st.dbl k +
        ((windows2 (opt_to_list p1 ++ T ++ L.take 1)).map
          (fun p => pair_key p.1 p.2)).count k) ∧
    ((process_dictionary_builder_line T L p1 p2 st).2.trpl =
      fun k => st.trpl k +
        ((windows3 (opt_to_list p2 ++ opt_to_list p1 ++ T ++ L.take 2)).map
          (fun t => triple_key t.1 t.2.1 t.2.2)).count k) ∧
    (process_dictionary_builder_line T L p1 p2 st).1 =
      (T.getLast?, T.dropLast.getLast?) ∧
    (T.length = 1 → (process_dictionary_builder_line T L p1 p2 st).1 = (T.head?, none)) := by
  refine ⟨process_line_dbl T L p1 p2 st hT, process_line_trpl T L p1 p2 st hT,
    process_line_carry T L p1 p2 st hT, fun h1 => ?_⟩
  rcases T with _ | ⟨t, _ | ⟨u, us⟩⟩
  · exact absurd rfl hT
  · rw [process_line_carry _ L p1 p2 st hT]
    rfl
  · simp at h1

theorem c1_witness :
    ((["a", "b"] : List String) ≠ []) ∧
    (process_dictionary_builder_line ["a", "b"] ["c", "d"] (some "p") (some "q")
        empty_dict_state).1 =
      ((["a", "b"] : List String).getLast?, (["a", "b"] : List String).dropLast.getLast?) :=
  ⟨by decide,
   (c1_process_line_ngram_passes ["a", "b"] ["c", "d"] (some "p") (some "q")
      empty_dict_state (by decide)).2.2.1⟩

/-- C2 counterexample: on a 10-line input with `num_workers = 4`, the
orchestrators' chunking expression produces 5 chunks of 2 lines each —
not 4 chunks of `ceil(10/4) = 3` — because the source divides with
integer (floor) division: `(vec_lines.len() / num_workers).max(1)`. -/
theorem c2_counterexample :
    (line_chunks demo_lines 4).length = 5 ∧
    (line_chunks demo_lines 4).length ≠ 4 ∧
    (line_chunks demo_lines 4).map List.length = [2, 2, 2, 2, 2] ∧
    (2 : Nat) ≠ (demo_lines.length + 4 - 1) / 4 := by
  decide

/-- C2 (amended): both orchestrators split the line vector into
contiguous chunks of size `max(floor(n/W), 1)`; concatenating the chunks
restores the vector, and the chunk lengths are `(n-1)/s` full chunks of
`s = max(floor(n/W), 1)` followed by one final chunk with the remaining
lines, so the number of chunks can exceed `W`. -/
theorem c2_amended_chunking {α : Type _} (lines : List α) (W : Nat) (hW : 0 < W) :
    (line_chunks lines W).flatten = lines ∧
    (line_chunks lines W).map List.length =
      chunk_sizes lines.length (max (lines.length / W) 1) :=
  ⟨chunksOf_flatten _ _, chunksOf_map_length (by omega) _⟩

theorem c2_witness :
    (0 < 4) ∧
    ((line_chunks demo_lines 4).flatten = demo_lines ∧
      (line_chunks demo_lines 4).map List.length =
        chunk_sizes demo_lines.length (max (demo_lines.length / 4) 1)) :=
  ⟨by decide, c2_amended_chunking demo_lines 4 (by decide)⟩

/-- C3: for every tokenizer, input file, and worker count with a
positive effective worker count, the shard-local entry point
(`parse_raw_single` / `dictionary_builder`) and the shared-map entry
point (`parse_raw_conc` / `dictionary_builder_conc`) return identical
bigram tables, trigram tables, and vocabularies. -/
theorem c3_single_conc_identical {α : Type _} (tok : α → List String)
    (file : Option (List α)) (num_threads : Option Nat)
    (hW : 0 < num_threads.getD 8) :
    parse_raw_single tok file num_threads = parse_raw_conc tok file num_threads := by
  simp only [parse_raw_single, parse_raw_conc, dictionary_builder, dictionary_builder_conc]
  rw [sort_dedup_foldl_insert]
  rfl

theorem c3_witness :
    (0 < (some 2 : Option Nat).getD 8) ∧
    parse_raw_single (fun (s : String) => [s]) (some ["x", "y", "z"]) (some 2) =
      parse_raw_conc (fun (s : String) => [s]) (some ["x", "y", "z"]) (some 2) :=
  ⟨by decide,
   c3_single_conc_identical (fun (s : String) => [s]) (some ["x", "y", "z"]) (some 2)
     (by decide)⟩

set_option maxRecDepth 8192 in
/-- C4 (code bug): compiling the Linux format template actually yields
`^...(?P<Component>.*?)(\\[(?P<PID>.*?)\\])?:\s+(?P<Content>.*?)$`
with doubled backslashes — the raw Rust string at parser.rs:31 contains
`\\[` — which is a different pattern from the spec's
`(\[(?P<PID>.*?)\])?` and not equivalent to it: in the generated
pattern the bracket opens a character class, so `PID` is not a named
capture group at all, while the claimed pattern does declare `PID`. -/
theorem c4_linux_template_compilation :
    regex_generator (format_string .Linux) =
      "^(?P<Month>.*?)\\s+(?P<Date>.*?)\\s+(?P<Time>.*?)\\s+(?P<Level>.*?)\\s+(?P<Component>.*?)(\\\\[(?P<PID>.*?)\\\\])?:\\s+(?P<Content>.*?)$" ∧
    regex_generator (format_string .Linux) ≠
      "^(?P<Month>.*?)\\s+(?P<Date>.*?)\\s+(?P<Time>.*?)\\s+(?P<Level>.*?)\\s+(?P<Component>.*?)(\\[(?P<PID>.*?)\\])?:\\s+(?P<Content>.*?)$" ∧
    "PID" ∈ named_groups
      "^(?P<Month>.*?)\\s+(?P<Date>.*?)\\s+(?P<Time>.*?)\\s+(?P<Level>.*?)\\s+(?P<Component>.*?)(\\[(?P<PID>.*?)\\])?:\\s+(?P<Content>.*?)$" ∧
    "PID" ∉ named_groups (regex_generator (format_string .Linux)) := by
  refine ⟨by decide, by decide, by decide, by decide⟩

/-- C5 counterexample: in the Proxifier template the literal ` - `
between `<Program>` and `<Content>` holds two space runs, and the
compiled output keeps the second run as a literal space (`\s+- `),
because `regex_generator_helper` uses `Regex::replace`, which replaces
only the first match; the claim's every-run replacement would have
produced `\s+-\s+`. -/
theorem c5_counterexample :
    regex_generator_helper (format_string .Proxifier) =
      "(?P<Time>.*?)]\\s+(?P<Program>.*?)\\s+- (?P<Content>.*?)" ∧
    regex_generator_helper (format_string .Proxifier) ≠
      "(?P<Time>.*?)]\\s+(?P<Program>.*?)\\s+-\\s+(?P<Content>.*?)" := by
  refine ⟨by decide, by decide⟩

/-- C5 (amended): for every template assembled from angle-free
placeholder names and angle-free inter-placeholder literals, each
placeholder `<Name>` compiles to the lazy named group `(?P<Name>.*?)`,
the literal between two consecutive placeholders passes through with
only its FIRST run of one-or-more spaces replaced by `\s+` (all other
characters unchanged), and the whole pattern is anchored with `^` and
`$`. -/
theorem c5_amended_template_compilation (h : List Char)
    (ps : List (List Char × List Char)) (hne : h ≠ []) (hh : angle_free h)
    (hps : ∀ p ∈ ps, angle_free p.1 ∧ p.2 ≠ [] ∧ angle_free p.2) :
    regex_generator (String.mk (assemble_template h ps)) =
      String.mk ('^' :: compiled_groups h ps ++ ['$']) := by
  rw [regex_generator]
  show String.mk ('^' :: helper_loop (assemble_template h ps) false ++ ['$']) = _
  rw [helper_loop_assembled h ps hne hh hps]

theorem c5_witness :
    ("Time".data ≠ [] ∧ angle_free "Time".data ∧
      (∀ p ∈ [("] ".data, "Program".data), (" - ".data, "Content".data)],
        angle_free p.1 ∧ p.2 ≠ [] ∧ angle_free p.2)) ∧
    regex_generator (String.mk (assemble_template "Time".data
        [("] ".data, "Program".data), (" - ".data, "Content".data)])) =
      String.mk ('^' :: compiled_groups "Time".data
        [("] ".data, "Program".data), (" - ".data, "Content".data)] ++ ['$']) :=
  ⟨⟨by decide, by decide, by decide⟩,
   c5_amended_template_compilation _ _ (by decide) (by decide) (by decide)⟩

set_option maxRecDepth 8192 in
/-- C6 counterexample: on the `from_paper.log` fixture with the spec's
scenario default `num_threads = 1`, the returned vocabulary is the five
content strings sorted lexicographically, not in the source-observed
order `21876, 14584, 0, 7292, 29168` that the claim (and the stale
in-src test oracle) states: `dictionary_builder` sorts and dedups the
vocabulary before returning (parser.rs:325-326). -/
theorem c6_counterexample :
    (parse_raw_single fixture_tok (some from_paper_lines) (some 1)).2.2 =
      ["hdfs://hostname/2kSOSP.log:0+7292",
       "hdfs://hostname/2kSOSP.log:14584+7292",
       "hdfs://hostname/2kSOSP.log:21876+7292",
       "hdfs://hostname/2kSOSP.log:29168+7292",
       "hdfs://hostname/2kSOSP.log:7292+7292"] ∧
    (parse_raw_single fixture_tok (some from_paper_lines) (some 1)).2.2 ≠
      ["hdfs://hostname/2kSOSP.log:21876+7292",
       "hdfs://hostname/2kSOSP.log:14584+7292",
       "hdfs://hostname/2kSOSP.log:0+7292",
       "hdfs://hostname/2kSOSP.log:7292+7292",
       "hdfs://hostname/2kSOSP.log:29168+7292"] := by
  refine ⟨by decide, by decide⟩

set_option maxRecDepth 8192 in
/-- C6 (amended): running the end-to-end Linux entry point on the
five-HDFS-URI sample file with `num_threads = 1` returns a vocabulary
consisting of the five content strings sorted lexicographically (not in
source-observed order), a bigram table where each consecutive pair has
count 2, and a trigram table where each consecutive triple has
count 1. -/
theorem c6_amended_fixture_result :
    (parse_raw_single fixture_tok (some from_paper_lines) (some 1)).2.2 =
      ["hdfs://hostname/2kSOSP.log:0+7292",
       "hdfs://hostname/2kSOSP.log:14584+7292",
       "hdfs://hostname/2kSOSP.log:21876+7292",
       "hdfs://hostname/2kSOSP.log:29168+7292",
       "hdfs://hostname/2kSOSP.log:7292+7292"] ∧
    (parse_raw_single fixture_tok (some from_paper_lines) (some 1)).1
      (pair_key "hdfs://hostname/2kSOSP.log:21876+7292"
        "hdfs://hostname/2kSOSP.log:14584+7292") = 2 ∧
    (parse_raw_single fixture_tok (some from_paper_lines) (some 1)).1
      (pair_key "hdfs://hostname/2kSOSP.log:14584+7292"
        "hdfs://hostname/2kSOSP.log:0+7292") = 2 ∧
    (parse_raw_single fixture_tok (some from_paper_lines) (some 1)).1
      (pair_key "hdfs://hostname/2kSOSP.log:0+7292"
        "hdfs://hostname/2kSOSP.log:7292+7292") = 2 ∧
    (parse_raw_single fixture_tok (some from_paper_lines) (some 1)).1
      (pair_key "hdfs://hostname/2kSOSP.log:7292+7292"
        "hdfs://hostname/2kSOSP.log:29168+7292") = 2 ∧
    (parse_raw_single fixture_tok (some from_paper_lines) (some 1)).2.1
      (triple_key "hdfs://hostname/2kSOSP.log:21876+7292"
        "hdfs://hostname/2kSOSP.log:14584+7292"
        "hdfs://hostname/2kSOSP.log:0+7292") = 1 ∧
    (parse_raw_single fixture_tok (some from_paper_lines) (some 1)).2.1
      (triple_key "hdfs://hostname/2kSOSP.log:14584+7292"
        "hdfs://hostname/2kSOSP.log:0+7292"
        "hdfs://hostname/2kSOSP.log:7292+7292") = 1 ∧
    (parse_raw_single fixture_tok (some from_paper_lines) (some 1)).2.1
      (triple_key "hdfs://hostname/2kSOSP.log:0+7292"
        "hdfs://hostname/2kSOSP.log:7292+7292"
        "hdfs://hostname/2kSOSP.log:29168+7292") = 1 := by
  refine ⟨by decide, by decide, by decide, by decide, by decide, by decide, by decide,
    by decide⟩

/-- C7: for every input, the vocabulary returned by either entry point
is lexicographically sorted and contains no duplicate tokens. -/
theorem c7_vocab_sorted_nodup {α : Type _} (tok : α → List String)
    (file : Option (List α)) (num_threads : Option Nat)
    (hW : 0 < num_threads.getD 8) :
    ((parse_raw_single tok file num_threads).2.2.Sorted str_le ∧
     (parse_raw_single tok file num_threads).2.2.Nodup) ∧
    ((parse_raw_conc tok file num_threads).2.2.Sorted str_le ∧
     (parse_raw_conc tok file num_threads).2.2.Nodup) := by
  refine ⟨⟨?_, ?_⟩, ?_, ?_⟩ <;>
    simp only [parse_raw_single, parse_raw_conc, dictionary_builder,
      dictionary_builder_conc] <;>
    first
    | exact sort_dedup_sorted _
    | exact sort_dedup_nodup _

theorem c7_witness :
    (0 < (some 2 : Option Nat).getD 8) ∧
    (((parse_raw_single (fun (s : String) => [s]) (some ["b", "a", "a"]) (some 2)).2.2.Sorted
        str_le ∧
      (parse_raw_single (fun (s : String) => [s]) (some ["b", "a", "a"]) (some 2)).2.2.Nodup) ∧
     ((parse_raw_conc (fun (s : String) => [s]) (some ["b", "a", "a"]) (some 2)).2.2.Sorted
        str_le ∧
      (parse_raw_conc (fun (s : String) => [s]) (some ["b", "a", "a"]) (some 2)).2.2.Nodup)) :=
  ⟨by decide,
   c7_vocab_sorted_nodup (fun (s : String) => [s]) (some ["b", "a", "a"]) (some 2)
     (by decide)⟩

/-- C8: if the input file cannot be opened, both entry points return
normally (the model is a total function, mirroring the `if let Ok`
that silently skips reading) with an empty bigram table, an empty
trigram table, and an empty vocabulary. -/
theorem c8_open_failure_empty {α : Type _} (tok : α → List String)
    (num_threads : Option Nat) (hW : 0 < num_threads.getD 8) :
    parse_raw_single tok none num_threads =
      ((fun _ => 0), (fun _ => 0), ([] : List String)) ∧
    parse_raw_conc tok none num_threads =
      ((fun _ => 0), (fun _ => 0), ([] : List String)) := by
  constructor <;> rfl

theorem c8_witness :
    (0 < (some 8 : Option Nat).getD 8) ∧
    (parse_raw_single (fun (s : String) => [s]) none (some 8) =
        ((fun _ => 0), (fun _ => 0), ([] : List String)) ∧
      parse_raw_conc (fun (s : String) => [s]) none (some 8) =
        ((fun _ => 0), (fun _ => 0), ([] : List String))) :=
  ⟨by decide, c8_open_failure_empty (fun (s : String) => [s]) (some 8) (by decide)⟩

set_option maxRecDepth 8192 in
/-- C9: for every schema in the closed set, the compiled pattern
declares a capture group named `Content` (outside any character class
and not escaped), and it is the last group, appearing in the top-level
suffix `(?P<Content>.*?)$` — so the `Content` capture of a successful
whole-line match is always present and `token_splitter`'s unwrap cannot
fire. -/
theorem c9_content_capture_group (lf : LogFormat) :
    "Content" ∈ named_groups (regex_generator (format_string lf)) ∧
    (named_groups (regex_generator (format_string lf))).getLast? = some "Content" := by
  cases lf <;> exact ⟨by decide, by decide⟩

/-- C10: literal text before the first placeholder or after the last
placeholder is omitted from the compiled pattern entirely: for any
decomposition `pre ++ core ++ suf` where `pre` contains no `<` and `suf`
contains no angle brackets, the compiled pattern equals that of `core`
alone — e.g. the quotes around the OpenStack template and the leading
`[` of the Proxifier template impose no constraint. -/
theorem c10_outer_literals_dropped (pre core suf : String)
    (h1 : '<' ∉ pre.data) (h2 : '<' ∉ suf.data) (h3 : '>' ∉ suf.data) :
    regex_generator_helper (pre ++ core ++ suf) = regex_generator_helper core := by
  rw [regex_generator_helper, regex_generator_helper]
  have hdata : (pre ++ core ++ suf).data = pre.data ++ (core.data ++ suf.data) := by
    simp [String.data_append]
  rw [hdata]
  congr 1
  rw [helper_loop_prepend h1, helper_loop_append h2 h3]

theorem c10_witness :
    ('<' ∉ "[".data ∧ '<' ∉ "".data ∧ '>' ∉ "".data) ∧
    format_string .Proxifier = "[" ++ "<Time>] <Program> - <Content>" ++ "" ∧
    regex_generator_helper ("[" ++ "<Time>] <Program> - <Content>" ++ "") =
      regex_generator_helper "<Time>] <Program> - <Content>" :=
  ⟨⟨by decide, by decide, by decide⟩, by decide,
   c10_outer_literals_dropped "[" "<Time>] <Program> - <Content>" ""
     (by decide) (by decide) (by decide)⟩
